import Mathlib

/-!
Verification of the structured-dedup core against its specification.

The development shallowly embeds the Rust sources:
  * `src/pathstore.rs`        — the path interning store (`PathStore`),
  * `src/filesystemtable.rs`  — the filesystem table, ingester and content arena,
  * `src/main.rs` / `src/lib.rs` — the digest grouping and savings analysis.

Modelling conventions:
  * `u32`/`u64`/`u128` values are modelled as `Nat` (no arithmetic overflow is
    exercised by any operation modelled here: indices only grow by `+ 1` per
    insertion and sizes are only summed).
  * Rust `OsString` path segments are modelled as `String`; a filesystem path is
    the list of its components (root-to-leaf), the empty path being `[]`.
  * A fallible operation (a Rust `unwrap`/panic or an out-of-bounds slice)
    is modelled with `Option`/`Except`: `none`/`.error` is the panic.
  * The `bimap::BiHashMap<u32, V>` interning maps assign dense indices
    `0, 1, 2, …` in insertion order (`parts.len()` is the next fresh index and
    both directions stay bijective because a value is only inserted when the
    reverse lookup misses).  They are modelled as the `List V` of values in
    index order: forward lookup is `List.get?`, reverse lookup is the index of
    the value in the list.
-/

deriving instance DecidableEq for Except

namespace Dedup

/-- Reverse lookup in an interning map: index of `x` in the value list `l`
(the `get_by_right` direction of the `BiHashMap`). -/
def lookupIdx {α : Type} [DecidableEq α] : List α → α → Option Nat
  | [], _ => none
  | y :: ys, x => if y = x then some 0 else (lookupIdx ys x).map (· + 1)

/-- Models both `PathStore::insert_or_lookup_part` and
`PathStore::insert_or_lookup_path` from `src/pathstore.rs`: return the index of
`x` if interned already, else append it with the next dense index
(`l.len()`). -/
def insert_or_lookup {α : Type} [DecidableEq α] (l : List α) (x : α) : List α × Nat :=
  match lookupIdx l x with
  | some i => (l, i)
  | none => (l ++ [x], l.length)

/-- The `PathStore` struct of `src/pathstore.rs`:
`parts` interns path segments (part-index → segment string) and `paths` interns
path chains (path-index → `(part_index, parent_path_index_or_none)`). -/
structure PathStore where
  parts : List String
  paths : List (Nat × Option Nat)
deriving DecidableEq

/-- `PathStore::new`: index 0 of `parts` is the empty segment and index 0 of
`paths` is the empty path `(0, None)`. -/
def PathStore.new : PathStore := ⟨[""], [(0, none)]⟩

/-- The segment-interning loop inside `PathStore::add_path`: walk the segments
left to right, interning each part and each `(part, parent)` chain node; `cur`
is the path index built so far (`None` at the root). -/
def addSegs (s : PathStore) (cur : Option Nat) : List String → PathStore × Option Nat
  | [] => (s, cur)
  | part :: rest =>
    let pr := insert_or_lookup s.parts part
    let qr := insert_or_lookup s.paths (pr.2, cur)
    addSegs ⟨pr.1, qr.1⟩ (some qr.2) rest

/-- `PathStore::add_path`: the empty path returns index 0 immediately; a
non-empty path interns its segments and returns the final chain node's index
(the trailing `unwrap` in the source cannot fire for a non-empty path, which is
why the `Option` is discharged with a default here). -/
def add_path (s : PathStore) (p : List String) : PathStore × Nat :=
  if p.isEmpty then (s, 0)
  else
    let r := addSegs s none p
    (r.1, r.2.getD 0)

/-- The `PathIteratorReverse` walk of `src/pathstore.rs`: follow parent links
from a path index, collecting part indices leaf-to-root.  The Rust iterator
relies on the parent chain terminating; the model bounds the walk by `fuel`
and returns `none` both when a map lookup `unwrap` would panic and when the
fuel runs out (the theorems below show neither happens on a reachable store). -/
def chainRev (paths : List (Nat × Option Nat)) : Nat → Option Nat → Option (List Nat)
  | _, none => some []
  | 0, some _ => none
  | fuel + 1, some i =>
    match paths.get? i with
    | none => none
    | some pe => (chainRev paths fuel pe.2).map (fun c => pe.1 :: c)

/-- Look every part index of a chain up in the `parts` map (`none` models the
`unwrap` panic on a dangling part index). -/
def mapLookup (parts : List String) : List Nat → Option (List String)
  | [] => some []
  | i :: is =>
    match parts.get? i with
    | none => none
    | some str => (mapLookup parts is).map (fun rest => str :: rest)

/-- `PathStore::get_path`: walk the parent chain, reverse it to root-to-leaf
order, look up each part string and collect them into a `PathBuf`.  Collecting
components into a `PathBuf` drops empty components (only the reserved empty
part 0, reachable solely through path index 0, is ever empty), modelled by the
final `filter`. -/
def get_path (s : PathStore) (index : Nat) : Option (List String) :=
  match chainRev s.paths s.paths.length (some index) with
  | none => none
  | some ch =>
    match mapLookup s.parts ch.reverse with
    | none => none
    | some segs => some (segs.filter (fun seg => !seg.isEmpty))

/-- Comparison of two characters by code point. -/
def charCmp (a b : Char) : Ordering :=
  if a.toNat = b.toNat then Ordering.eq
  else if a.toNat < b.toNat then Ordering.lt
  else Ordering.gt

/-- Lexicographic comparison of two character lists (a strict prefix is
smaller). -/
def charsCmp : List Char → List Char → Ordering
  | [], [] => Ordering.eq
  | [], _ :: _ => Ordering.lt
  | _ :: _, [] => Ordering.gt
  | a :: as, b :: bs =>
    match charCmp a b with
    | Ordering.eq => charsCmp as bs
    | o => o

/-- Total comparison of two segment strings, models the lexicographic
`OsString` ordering used by `a_str.cmp(b_str)` (code-point order coincides
with the byte order of the UTF-8 encoding); it returns `.eq` exactly on equal
strings. -/
def strCmp (a b : String) : Ordering := charsCmp a.data b.data

/-- The comparison loop of `PathStore::cmp_paths`: walk the two root-to-leaf
part-index sequences in lock-step; equal indices are equal segments by
interning and are skipped, the first differing index pair is decided by string
comparison of just those two segments, and exhausting either side (the `zip`)
yields `Equal`. -/
def cmpParts (parts : List String) : List Nat → List Nat → Option Ordering
  | a :: as, b :: bs =>
    if a = b then cmpParts parts as bs
    else
      match parts.get? a, parts.get? b with
      | some sa, some sb => some (strCmp sa sb)
      | _, _ => none
  | _, _ => some Ordering.eq

/-- `PathStore::cmp_paths`: equal indices compare `Equal` immediately;
otherwise both parent chains are materialised, reversed to root-to-leaf order
and compared part-wise by `cmpParts`. -/
def cmp_paths (s : PathStore) (a_path b_path : Nat) : Option Ordering :=
  if a_path = b_path then some Ordering.eq
  else
    match chainRev s.paths s.paths.length (some a_path),
          chainRev s.paths s.paths.length (some b_path) with
    | some ca, some cb => cmpParts s.parts ca.reverse cb.reverse
    | _, _ => none

/-- Well-formedness invariant of a `PathStore`, established by `new` and
preserved by `add_path`: both interning maps are duplicate-free (they are
bijections in the source), index 0 holds the reserved empty part / empty path,
every chain node's part index is in range, and every parent index is strictly
smaller than its node's index. -/
structure WF (s : PathStore) : Prop where
  partsNodup : s.parts.Nodup
  pathsNodup : s.paths.Nodup
  part0 : s.parts.get? 0 = some ""
  path0 : s.paths.get? 0 = some (0, none)
  partLt : ∀ i pe, s.paths.get? i = some pe → pe.1 < s.parts.length
  parentLt : ∀ i pe j, s.paths.get? i = some pe → pe.2 = some j → j < i

/-- The stores reachable by the program: `PathStore::new` followed by any
sequence of `add_path` calls. -/
inductive Reachable : PathStore → Prop
  | base : Reachable PathStore.new
  | step (s : PathStore) (p : List String) : Reachable s → Reachable (add_path s p).1

theorem lookupIdx_append {α : Type} [DecidableEq α] {l : List α} {x : α} {i : Nat}
    (h : lookupIdx l x = some i) (t : List α) : lookupIdx (l ++ t) x = some i := by
  induction l generalizing i with
  | nil => simp [lookupIdx] at h
  | cons y ys ih =>
    by_cases hy : y = x
    · simp only [lookupIdx, if_pos hy] at h ⊢
      exact h
    · simp only [lookupIdx, if_neg hy, Option.map_eq_some', List.cons_append] at h ⊢
      obtain ⟨j, hj, rfl⟩ := h
      exact ⟨j, ih hj, rfl⟩

theorem lookupIdx_eq_none {α : Type} [DecidableEq α] {l : List α} {x : α} :
    lookupIdx l x = none ↔ x ∉ l := by
  induction l with
  | nil => simp [lookupIdx]
  | cons y ys ih =>
    by_cases hy : y = x
    · simp [lookupIdx, hy]
    · simp [lookupIdx, hy, Option.map_eq_none', ih, Ne.symm hy]

theorem lookupIdx_get {α : Type} [DecidableEq α] {l : List α} {x : α} {i : Nat}
    (h : lookupIdx l x = some i) : l.get? i = some x := by
  induction l generalizing i with
  | nil => simp [lookupIdx] at h
  | cons y ys ih =>
    by_cases hy : y = x
    · simp only [lookupIdx, if_pos hy] at h
      cases h
      simp [hy]
    · simp only [lookupIdx, if_neg hy, Option.map_eq_some'] at h
      obtain ⟨j, hj, rfl⟩ := h
      simpa using ih hj

theorem lookupIdx_lt {α : Type} [DecidableEq α] {l : List α} {x : α} {i : Nat}
    (h : lookupIdx l x = some i) : i < l.length := by
  have := lookupIdx_get h
  rcases List.get?_eq_some.mp this with ⟨hlt, _⟩
  exact hlt

theorem lookupIdx_concat {α : Type} [DecidableEq α] {l : List α} {x : α} (h : x ∉ l) :
    lookupIdx (l ++ [x]) x = some l.length := by
  induction l with
  | nil => simp [lookupIdx]
  | cons y ys ih =>
    have hy : y ≠ x := by
      intro hxy
      exact h (hxy ▸ List.mem_cons_self y ys)
    have hys : x ∉ ys := fun hm => h (List.mem_cons_of_mem _ hm)
    simp [lookupIdx, hy, ih hys]

/-- `get?` on a list extended on the right is unchanged where it succeeded. -/
theorem get?_append_some {α : Type} {l t : List α} {n : Nat} {a : α}
    (h : l.get? n = some a) : (l ++ t).get? n = some a := by
  rcases List.get?_eq_some.mp h with ⟨hlt, _⟩
  rw [List.get?_append hlt]
  exact h

theorem insert_or_lookup_ext {α : Type} [DecidableEq α] (l : List α) (x : α) :
    ∃ t, (insert_or_lookup l x).1 = l ++ t := by
  unfold insert_or_lookup
  cases h : lookupIdx l x with
  | none => exact ⟨[x], rfl⟩
  | some i => exact ⟨[], by simp⟩

theorem insert_or_lookup_lookup {α : Type} [DecidableEq α] (l : List α) (x : α) :
    lookupIdx (insert_or_lookup l x).1 x = some (insert_or_lookup l x).2 := by
  unfold insert_or_lookup
  cases h : lookupIdx l x with
  | none => exact lookupIdx_concat (lookupIdx_eq_none.mp h)
  | some i => exact h

theorem insert_or_lookup_get {α : Type} [DecidableEq α] (l : List α) (x : α) :
    (insert_or_lookup l x).1.get? (insert_or_lookup l x).2 = some x :=
  lookupIdx_get (insert_or_lookup_lookup l x)

theorem insert_or_lookup_lt {α : Type} [DecidableEq α] (l : List α) (x : α) :
    (insert_or_lookup l x).2 < (insert_or_lookup l x).1.length :=
  lookupIdx_lt (insert_or_lookup_lookup l x)

theorem insert_or_lookup_nodup {α : Type} [DecidableEq α] {l : List α} (x : α)
    (h : l.Nodup) : (insert_or_lookup l x).1.Nodup := by
  unfold insert_or_lookup
  cases hx : lookupIdx l x with
  | none =>
    simp only
    rw [List.nodup_append]
    exact ⟨h, List.nodup_singleton x,
      fun a ha hb => (lookupIdx_eq_none.mp hx) ((List.mem_singleton.mp hb) ▸ ha)⟩
  | some i => exact h

/-- A lookup that already succeeds is stable: re-interning `x` in any rightward
extension of the store returns the same index and leaves the store unchanged. -/
theorem insert_or_lookup_stable {α : Type} [DecidableEq α] {l l2 : List α} {x : α}
    (ht : ∃ t, l2 = (insert_or_lookup l x).1 ++ t) :
    insert_or_lookup l2 x = (l2, (insert_or_lookup l x).2) := by
  obtain ⟨t, rfl⟩ := ht
  have h := lookupIdx_append (insert_or_lookup_lookup l x) t
  generalize hA : (insert_or_lookup l x).1 = A at h ⊢
  generalize hi : (insert_or_lookup l x).2 = i at h ⊢
  unfold insert_or_lookup
  rw [h]

theorem chainRev_none (paths : List (Nat × Option Nat)) (fuel : Nat) :
    chainRev paths fuel none = some [] := by
  cases fuel <;> rfl

/-- A completed chain walk is insensitive to extra fuel. -/
theorem chainRev_mono {paths : List (Nat × Option Nat)} {fuel fuel2 : Nat}
    {cur : Option Nat} {l : List Nat} (h : chainRev paths fuel cur = some l)
    (hf : fuel ≤ fuel2) : chainRev paths fuel2 cur = some l := by
  induction fuel generalizing cur l fuel2 with
  | zero =>
    cases cur with
    | none => simpa [chainRev_none] using h
    | some i => simp [chainRev] at h
  | succ f ih =>
    cases cur with
    | none => simpa [chainRev_none] using h
    | some i =>
      obtain ⟨f2, rfl⟩ : ∃ f2, fuel2 = f2 + 1 :=
        ⟨fuel2 - 1, by omega⟩
      simp only [chainRev] at h ⊢
      cases hg : paths.get? i with
      | none => rw [hg] at h; simp at h
      | some pe =>
        rw [hg] at h
        simp only [Option.map_eq_some'] at h ⊢
        obtain ⟨c, hc, rfl⟩ := h
        exact ⟨c, ih hc (by omega), rfl⟩

/-- A completed chain walk is preserved when the paths map is extended on the
right. -/
theorem chainRev_ext {paths t : List (Nat × Option Nat)} {fuel : Nat}
    {cur : Option Nat} {l : List Nat} (h : chainRev paths fuel cur = some l) :
    chainRev (paths ++ t) fuel cur = some l := by
  induction fuel generalizing cur l with
  | zero =>
    cases cur with
    | none => simpa [chainRev_none] using h
    | some i => simp [chainRev] at h
  | succ f ih =>
    cases cur with
    | none => simpa [chainRev_none] using h
    | some i =>
      simp only [chainRev] at h ⊢
      cases hg : paths.get? i with
      | none => rw [hg] at h; simp at h
      | some pe =>
        rw [hg] at h
        rw [get?_append_some hg]
        simp only [Option.map_eq_some'] at h ⊢
        obtain ⟨c, hc, rfl⟩ := h
        exact ⟨c, ih hc, rfl⟩

/-- Every part index produced by a chain walk comes from some chain node. -/
theorem chainRev_mem {paths : List (Nat × Option Nat)} {fuel : Nat}
    {cur : Option Nat} {l : List Nat} (h : chainRev paths fuel cur = some l) :
    ∀ x ∈ l, ∃ i pe, paths.get? i = some pe ∧ pe.1 = x := by
  induction fuel generalizing cur l with
  | zero =>
    cases cur with
    | none =>
      rw [chainRev_none] at h
      cases h
      intro x hx
      simp at hx
    | some i => simp [chainRev] at h
  | succ f ih =>
    cases cur with
    | none =>
      rw [chainRev_none] at h
      cases h
      intro x hx
      simp at hx
    | some i =>
      simp only [chainRev] at h
      cases hg : paths.get? i with
      | none => rw [hg] at h; simp at h
      | some pe =>
        rw [hg] at h
        simp only [Option.map_eq_some'] at h
        obtain ⟨c, hc, rfl⟩ := h
        intro x hx
        rcases List.mem_cons.mp hx with rfl | hx
        · exact ⟨i, pe, hg, rfl⟩
        · exact ih hc x hx

/-- A completed part-string lookup is preserved when the parts map is extended
on the right. -/
theorem mapLookup_ext {parts t : List String} {l : List Nat} {sl : List String}
    (h : mapLookup parts l = some sl) : mapLookup (parts ++ t) l = some sl := by
  induction l generalizing sl with
  | nil => simpa [mapLookup] using h
  | cons i is ih =>
    simp only [mapLookup] at h ⊢
    cases hg : parts.get? i with
    | none => rw [hg] at h; simp at h
    | some str =>
      rw [hg] at h
      rw [get?_append_some hg]
      simp only [Option.map_eq_some'] at h ⊢
      obtain ⟨rest, hrest, rfl⟩ := h
      exact ⟨rest, ih hrest, rfl⟩

theorem mapLookup_append {parts : List String} {l1 l2 : List Nat}
    {s1 s2 : List String} (h1 : mapLookup parts l1 = some s1)
    (h2 : mapLookup parts l2 = some s2) :
    mapLookup parts (l1 ++ l2) = some (s1 ++ s2) := by
  induction l1 generalizing s1 with
  | nil =>
    simp only [mapLookup] at h1
    cases h1
    simpa using h2
  | cons i is ih =>
    simp only [mapLookup] at h1 ⊢
    cases hg : parts.get? i with
    | none => rw [hg] at h1; simp at h1
    | some str =>
      rw [hg] at h1
      simp only [Option.map_eq_some'] at h1
      obtain ⟨rest, hrest, rfl⟩ := h1
      rw [List.cons_append]
      simp only [mapLookup, hg, Option.map_eq_some']
      exact ⟨rest ++ s2, ih hrest, rfl⟩

theorem mapLookup_reverse {parts : List String} {l : List Nat} {sl : List String}
    (h : mapLookup parts l = some sl) :
    mapLookup parts l.reverse = some sl.reverse := by
  induction l generalizing sl with
  | nil =>
    simp only [mapLookup] at h
    cases h
    rfl
  | cons i is ih =>
    simp only [mapLookup] at h
    cases hg : parts.get? i with
    | none => rw [hg] at h; simp at h
    | some str =>
      rw [hg] at h
      simp only [Option.map_eq_some'] at h
      obtain ⟨rest, hrest, rfl⟩ := h
      have hone : mapLookup parts [i] = some [str] := by
        simp only [mapLookup, hg, Option.map_some']
      rw [List.reverse_cons]
      rw [mapLookup_append (ih hrest) hone]
      simp

theorem mapLookup_total {parts : List String} {l : List Nat}
    (h : ∀ x ∈ l, x < parts.length) : ∃ sl, mapLookup parts l = some sl := by
  induction l with
  | nil => exact ⟨[], rfl⟩
  | cons i is ih =>
    obtain ⟨sl, hsl⟩ := ih (fun x hx => h x (List.mem_cons_of_mem _ hx))
    have hi : i < parts.length := h i (List.mem_cons_self _ _)
    rcases hg : parts.get? i with _ | str
    · rw [List.get?_eq_none] at hg
      omega
    · exact ⟨str :: sl, by simp only [mapLookup, hg, hsl, Option.map_some']⟩

/-- The two outcomes of interning: an existing value is found at its index and
the map is untouched, or a fresh value is appended at index `l.length`. -/
theorem insert_or_lookup_cases {α : Type} [DecidableEq α] (l : List α) (x : α) :
    (lookupIdx l x = some (insert_or_lookup l x).2 ∧ (insert_or_lookup l x).1 = l) ∨
    (lookupIdx l x = none ∧ (insert_or_lookup l x).2 = l.length ∧
      (insert_or_lookup l x).1 = l ++ [x]) := by
  unfold insert_or_lookup
  cases hl : lookupIdx l x with
  | some i => exact Or.inl ⟨rfl, rfl⟩
  | none => exact Or.inr ⟨rfl, rfl, rfl⟩

theorem get?_concat_cases {α : Type} {l : List α} {x a : α} {i : Nat}
    (h : (l ++ [x]).get? i = some a) :
    (i < l.length ∧ l.get? i = some a) ∨ (i = l.length ∧ a = x) := by
  by_cases hi : i < l.length
  · left
    refine ⟨hi, ?_⟩
    rw [List.get?_append hi] at h
    exact h
  · right
    rcases List.get?_eq_some.mp h with ⟨hlt, _⟩
    simp only [List.length_append, List.length_singleton] at hlt
    have hieq : i = l.length := by omega
    subst hieq
    rw [List.get?_concat_length] at h
    cases h
    exact ⟨rfl, rfl⟩

/-- Main characterisation of the interning loop of `add_path`.  Starting from a
well-formed store and a current chain node `cur` whose leaf-to-root part chain
is `lc` with segment strings `pre`, processing the remaining segments `p`
preserves well-formedness, only appends to both interning maps, and for a
non-empty `p` returns a valid index whose chain spells exactly
`p.reverse ++ pre`. -/
theorem addSegs_spec (p : List String) :
    ∀ (s : PathStore) (cur : Option Nat) (lc : List Nat) (pre : List String),
      WF s →
      (cur = none → lc = [] ∧ pre = []) →
      (∀ c, cur = some c →
        c < s.paths.length ∧
        chainRev s.paths (c + 1) (some c) = some lc ∧
        mapLookup s.parts lc = some pre) →
      WF (addSegs s cur p).1 ∧
      (∃ t, (addSegs s cur p).1.parts = s.parts ++ t) ∧
      (∃ u, (addSegs s cur p).1.paths = s.paths ++ u) ∧
      (p = [] → addSegs s cur p = (s, cur)) ∧
      (p ≠ [] → ∃ rr lr,
        (addSegs s cur p).2 = some rr ∧
        rr < (addSegs s cur p).1.paths.length ∧
        chainRev (addSegs s cur p).1.paths (rr + 1) (some rr) = some lr ∧
        mapLookup (addSegs s cur p).1.parts lr = some (p.reverse ++ pre)) := by
  induction p with
  | nil =>
    intro s cur lc pre hs _ _
    exact ⟨hs, ⟨[], by simp [addSegs]⟩, ⟨[], by simp [addSegs]⟩,
      fun _ => rfl, fun hne => absurd rfl hne⟩
  | cons part rest ih =>
    intro s cur lc pre hs hnone hsome
    obtain ⟨t0, hPext⟩ := insert_or_lookup_ext s.parts part
    obtain ⟨u0, hQext⟩ :=
      insert_or_lookup_ext s.paths ((insert_or_lookup s.parts part).2, cur)
    have hpi_get := insert_or_lookup_get s.parts part
    have hpi_lt := insert_or_lookup_lt s.parts part
    have hidx_get := insert_or_lookup_get s.paths ((insert_or_lookup s.parts part).2, cur)
    have hidx_lt := insert_or_lookup_lt s.paths ((insert_or_lookup s.parts part).2, cur)
    -- the parent of the new node is strictly below it
    have hcur_lt_idx : ∀ c, cur = some c →
        c < (insert_or_lookup s.paths ((insert_or_lookup s.parts part).2, cur)).2 := by
      intro c hc
      rcases insert_or_lookup_cases s.paths ((insert_or_lookup s.parts part).2, cur) with
        ⟨hl, -⟩ | ⟨-, hlen, -⟩
      · have hget := lookupIdx_get hl
        exact hs.parentLt _ ((insert_or_lookup s.parts part).2, cur) c hget hc
      · rw [hlen]
        exact (hsome c hc).1
    have hcur_lt_len : ∀ c, cur = some c → c < s.paths.length :=
      fun c hc => (hsome c hc).1
    set pi := (insert_or_lookup s.parts part).2 with hpi_def
    set P1 := (insert_or_lookup s.parts part).1 with hP1_def
    set idx := (insert_or_lookup s.paths (pi, cur)).2 with hidx_def
    set Q1 := (insert_or_lookup s.paths (pi, cur)).1 with hQ1_def
    set sMid : PathStore := ⟨P1, Q1⟩ with hsMid_def
    have hstep : addSegs s cur (part :: rest) = addSegs sMid (some idx) rest := rfl
    have hPlen : s.parts.length ≤ P1.length := by
      rw [hPext]
      simp
    have hQlen : s.paths.length ≤ Q1.length := by
      rw [hQext]
      simp
    -- well-formedness of the intermediate store
    have hMid : WF sMid := by
      refine ⟨insert_or_lookup_nodup part hs.partsNodup,
              insert_or_lookup_nodup (pi, cur) hs.pathsNodup,
              ?_, ?_, ?_, ?_⟩
      · show P1.get? 0 = some ""
        rw [hPext]
        exact get?_append_some hs.part0
      · show Q1.get? 0 = some (0, none)
        rw [hQext]
        exact get?_append_some hs.path0
      · show ∀ i pe, Q1.get? i = some pe → pe.1 < P1.length
        intro i pe hget
        rcases insert_or_lookup_cases s.paths (pi, cur) with ⟨-, hQeq⟩ | ⟨-, -, hQeq⟩
        · rw [hQ1_def, hQeq] at hget
          exact lt_of_lt_of_le (hs.partLt i pe hget) hPlen
        · rw [hQ1_def, hQeq] at hget
          rcases get?_concat_cases hget with ⟨_, hold⟩ | ⟨_, rfl⟩
          · exact lt_of_lt_of_le (hs.partLt i pe hold) hPlen
          · exact hpi_lt
      · show ∀ i pe j, Q1.get? i = some pe → pe.2 = some j → j < i
        intro i pe j hget hj
        rcases insert_or_lookup_cases s.paths (pi, cur) with ⟨-, hQeq⟩ | ⟨-, -, hQeq⟩
        · rw [hQ1_def, hQeq] at hget
          exact hs.parentLt i pe j hget hj
        · rw [hQ1_def, hQeq] at hget
          rcases get?_concat_cases hget with ⟨_, hold⟩ | ⟨hieq, rfl⟩
          · exact hs.parentLt i pe j hold hj
          · subst hieq
            exact hcur_lt_len j hj
    -- the chain of the new node
    have hchain_idx : chainRev Q1 (idx + 1) (some idx) = some (pi :: lc) := by
      simp only [chainRev, hidx_get]
      cases cur with
      | none =>
        obtain ⟨rfl, -⟩ := hnone rfl
        simp [chainRev_none]
      | some c =>
        obtain ⟨-, hch, -⟩ := hsome c rfl
        have hext : chainRev Q1 (c + 1) (some c) = some lc := by
          rw [hQext]
          exact chainRev_ext hch
        have hidx_ge : c + 1 ≤ idx := hcur_lt_idx c rfl
        rw [chainRev_mono hext hidx_ge]
        rfl
    -- the strings of the new chain
    have hstr_idx : mapLookup P1 (pi :: lc) = some (part :: pre) := by
      have hlc : mapLookup P1 lc = some pre := by
        cases cur with
        | none =>
          obtain ⟨rfl, rfl⟩ := hnone rfl
          rfl
        | some c =>
          obtain ⟨-, -, hml⟩ := hsome c rfl
          rw [hPext]
          exact mapLookup_ext hml
      simp only [mapLookup, hpi_get, hlc, Option.map_some']
    -- apply the induction hypothesis from the intermediate store
    have hih := ih sMid (some idx) (pi :: lc) (part :: pre) hMid
      (fun h => Option.noConfusion h)
      (by
        intro c hc
        cases hc
        exact ⟨hidx_lt, hchain_idx, hstr_idx⟩)
    obtain ⟨hWF, ⟨t1, hT1⟩, ⟨u1, hU1⟩, hnil, hne⟩ := hih
    rw [hstep]
    refine ⟨hWF, ?_, ?_, ?_, ?_⟩
    · refine ⟨t0 ++ t1, ?_⟩
      rw [hT1]
      show P1 ++ t1 = s.parts ++ (t0 ++ t1)
      rw [hPext, List.append_assoc]
    · refine ⟨u0 ++ u1, ?_⟩
      rw [hU1]
      show Q1 ++ u1 = s.paths ++ (u0 ++ u1)
      rw [hQext, List.append_assoc]
    · intro h
      exact absurd h (List.cons_ne_nil part rest)
    · intro _
      by_cases hrest : rest = []
      · subst hrest
        have heq := hnil rfl
        rw [heq]
        refine ⟨idx, pi :: lc, rfl, hidx_lt, hchain_idx, ?_⟩
        simpa using hstr_idx
      · obtain ⟨rr, lr, h1, h2, h3, h4⟩ := hne hrest
        refine ⟨rr, lr, h1, h2, h3, ?_⟩
        rw [h4]
        simp [List.reverse_cons, List.append_assoc]

theorem WF_new : WF PathStore.new := by
  refine ⟨?_, ?_, rfl, rfl, ?_, ?_⟩
  · simp [PathStore.new]
  · simp [PathStore.new]
  · intro i pe hget
    cases i with
    | zero =>
      cases hget
      simp [PathStore.new]
    | succ n => simp [PathStore.new] at hget
  · intro i pe j hget hj
    cases i with
    | zero =>
      cases hget
      simp at hj
    | succ n => simp [PathStore.new] at hget

/-- Specification of `add_path` for a non-empty path on a well-formed store:
the store stays well-formed and only grows, and the returned index is valid
with a parent chain spelling exactly the added segments. -/
theorem add_path_spec {s : PathStore} (hs : WF s) (p : List String) (hne : p ≠ []) :
    WF (add_path s p).1 ∧
    (∃ t, (add_path s p).1.parts = s.parts ++ t) ∧
    (∃ u, (add_path s p).1.paths = s.paths ++ u) ∧
    (add_path s p).2 < (add_path s p).1.paths.length ∧
    ∃ lr,
      chainRev (add_path s p).1.paths ((add_path s p).2 + 1)
        (some (add_path s p).2) = some lr ∧
      mapLookup (add_path s p).1.parts lr = some p.reverse := by
  have h := addSegs_spec p s none [] [] hs (fun _ => ⟨rfl, rfl⟩)
    (fun c hc => Option.noConfusion hc)
  obtain ⟨hWF, hT, hU, -, hner⟩ := h
  obtain ⟨rr, lr, h1, h2, h3, h4⟩ := hner hne
  have hadd : add_path s p = ((addSegs s none p).1, rr) := by
    unfold add_path
    rw [if_neg (by simpa [List.isEmpty_iff] using hne)]
    simp [h1]
  rw [hadd]
  exact ⟨hWF, hT, hU, h2, lr, h3, by simpa using h4⟩

theorem add_path_WF {s : PathStore} (hs : WF s) (p : List String) :
    WF (add_path s p).1 := by
  by_cases hp : p = []
  · subst hp
    exact hs
  · exact (add_path_spec hs p hp).1

theorem reachable_wf {s : PathStore} (h : Reachable s) : WF s := by
  induction h with
  | base => exact WF_new
  | step s p _ ih => exact add_path_WF ih p

/-- On a well-formed store the parent-chain walk from any valid index
terminates within `i + 1` steps (parents strictly decrease). -/
theorem chain_exists {s : PathStore} (hs : WF s) :
    ∀ i, i < s.paths.length → ∃ l, chainRev s.paths (i + 1) (some i) = some l := by
  intro i
  induction i using Nat.strong_induction_on with
  | _ i ih =>
    intro hi
    obtain ⟨pe, hpe⟩ : ∃ pe, s.paths.get? i = some pe := by
      rcases hg : s.paths.get? i with _ | pe
      · rw [List.get?_eq_none] at hg
        omega
      · exact ⟨pe, rfl⟩
    cases hpar : pe.2 with
    | none =>
      refine ⟨[pe.1], ?_⟩
      simp only [chainRev, hpe, hpar, chainRev_none, Option.map_some']
    | some j =>
      have hj : j < i := hs.parentLt i pe j hpe hpar
      obtain ⟨l, hl⟩ := ih j hj (by omega)
      refine ⟨pe.1 :: l, ?_⟩
      simp only [chainRev, hpe, hpar]
      rw [chainRev_mono hl (by omega)]
      rfl

/-- All part indices along a chain of a well-formed store are in range. -/
theorem chain_parts_lt {s : PathStore} (hs : WF s) {fuel : Nat} {cur : Option Nat}
    {l : List Nat} (h : chainRev s.paths fuel cur = some l) :
    ∀ x ∈ l, x < s.parts.length := by
  intro x hx
  obtain ⟨k, pe, hk, rfl⟩ := chainRev_mem h x hx
  exact hs.partLt k pe hk

theorem get_path_total {s : PathStore} (hs : WF s) {i : Nat} (hi : i < s.paths.length) :
    ∃ l, get_path s i = some l := by
  obtain ⟨ch, hch⟩ := chain_exists hs i hi
  have hch' : chainRev s.paths s.paths.length (some i) = some ch :=
    chainRev_mono hch hi
  have hbound : ∀ x ∈ ch.reverse, x < s.parts.length := by
    intro x hx
    exact chain_parts_lt hs hch x (List.mem_reverse.mp hx)
  obtain ⟨sl, hsl⟩ := mapLookup_total hbound
  exact ⟨sl.filter (fun seg => !seg.isEmpty), by simp only [get_path, hch', hsl]⟩

theorem cmpParts_total {parts : List String} : ∀ {ra rb : List Nat},
    (∀ x ∈ ra, x < parts.length) → (∀ x ∈ rb, x < parts.length) →
    ∃ o, cmpParts parts ra rb = some o := by
  intro ra
  induction ra with
  | nil =>
    intro rb _ _
    cases rb with
    | nil => exact ⟨Ordering.eq, rfl⟩
    | cons b bs => exact ⟨Ordering.eq, rfl⟩
  | cons a as ih =>
    intro rb h1 h2
    cases rb with
    | nil => exact ⟨Ordering.eq, rfl⟩
    | cons b bs =>
      by_cases hab : a = b
      · obtain ⟨o, ho⟩ := ih (fun x hx => h1 x (List.mem_cons_of_mem _ hx))
          (fun x hx => h2 x (List.mem_cons_of_mem _ hx))
        exact ⟨o, by simp only [cmpParts, if_pos hab, ho]⟩
      · have ha : a < parts.length := h1 a (List.mem_cons_self _ _)
        have hb : b < parts.length := h2 b (List.mem_cons_self _ _)
        obtain ⟨sa, hsa⟩ : ∃ v, parts.get? a = some v := by
          rcases hg : parts.get? a with _ | v
          · rw [List.get?_eq_none] at hg
            omega
          · exact ⟨v, rfl⟩
        obtain ⟨sb, hsb⟩ : ∃ v, parts.get? b = some v := by
          rcases hg : parts.get? b with _ | v
          · rw [List.get?_eq_none] at hg
            omega
          · exact ⟨v, rfl⟩
        exact ⟨strCmp sa sb, by simp only [cmpParts, if_neg hab, hsa, hsb]⟩

theorem cmp_paths_total {s : PathStore} (hs : WF s) {a b : Nat}
    (ha : a < s.paths.length) (hb : b < s.paths.length) :
    ∃ o, cmp_paths s a b = some o := by
  by_cases hab : a = b
  · exact ⟨Ordering.eq, by simp [cmp_paths, hab]⟩
  · obtain ⟨ca, hca⟩ := chain_exists hs a ha
    obtain ⟨cb, hcb⟩ := chain_exists hs b hb
    have hca' := chainRev_mono hca ha
    have hcb' := chainRev_mono hcb hb
    obtain ⟨o, ho⟩ := cmpParts_total
      (fun x hx => chain_parts_lt hs hca x (List.mem_reverse.mp hx))
      (fun x hx => chain_parts_lt hs hcb x (List.mem_reverse.mp hx))
    exact ⟨o, by simp only [cmp_paths, if_neg hab, hca', hcb', ho]⟩

theorem charCmp_self (a : Char) : charCmp a a = Ordering.eq := by
  simp [charCmp]

theorem charCmp_eq_iff {a b : Char} : charCmp a b = Ordering.eq ↔ a = b := by
  constructor
  · intro h
    unfold charCmp at h
    by_cases hn : a.toNat = b.toNat
    · exact Char.ext (UInt32.ext hn)
    · rw [if_neg hn] at h
      by_cases hlt : a.toNat < b.toNat
      · rw [if_pos hlt] at h
        cases h
      · rw [if_neg hlt] at h
        cases h
  · intro h
    subst h
    exact charCmp_self a

theorem charsCmp_self (l : List Char) : charsCmp l l = Ordering.eq := by
  induction l with
  | nil => rfl
  | cons a as ih => simp [charsCmp, charCmp_self, ih]

theorem charsCmp_eq_iff : ∀ {l m : List Char}, charsCmp l m = Ordering.eq ↔ l = m := by
  intro l
  induction l with
  | nil =>
    intro m
    cases m with
    | nil => simp [charsCmp]
    | cons b bs => simp [charsCmp]
  | cons a as ih =>
    intro m
    cases m with
    | nil => simp [charsCmp]
    | cons b bs =>
      simp only [charsCmp]
      cases hc : charCmp a b with
      | eq =>
        have hab : a = b := charCmp_eq_iff.mp hc
        subst hab
        simp [ih]
      | lt =>
        have : ¬ a = b := fun h => by
          subst h
          rw [charCmp_self] at hc
          cases hc
        simp [this]
      | gt =>
        have : ¬ a = b := fun h => by
          subst h
          rw [charCmp_self] at hc
          cases hc
        simp [this]

theorem strCmp_self (a : String) : strCmp a a = Ordering.eq :=
  charsCmp_self a.data

theorem strCmp_eq_iff {a b : String} : strCmp a b = Ordering.eq ↔ a = b := by
  unfold strCmp
  rw [charsCmp_eq_iff]
  constructor
  · intro h
    cases a
    cases b
    exact congrArg String.mk h
  · intro h
    rw [h]

/-- The comparison C2 attributes to `cmp_paths`: compare the two segment lists
pairwise under `zip` semantics, deciding at the first differing pair and
returning `Equal` when either list runs out (so a strict prefix compares
`Equal`). -/
def zipLexCmp : List String → List String → Ordering
  | a :: as, b :: bs =>
    match strCmp a b with
    | Ordering.eq => zipLexCmp as bs
    | o => o
  | _, _ => Ordering.eq

theorem zipLexCmp_self (l : List String) : zipLexCmp l l = Ordering.eq := by
  induction l with
  | nil => rfl
  | cons a as ih => simp [zipLexCmp, strCmp_self, ih]

/-- On a duplicate-free parts map, the index-skipping comparison loop of
`cmp_paths` computes exactly the zip-based lexicographic comparison of the two
segment-string lists. -/
theorem cmpParts_eq_zip {parts : List String} (hnd : parts.Nodup) :
    ∀ {ra rb : List Nat} {sa sb : List String},
    mapLookup parts ra = some sa → mapLookup parts rb = some sb →
    cmpParts parts ra rb = some (zipLexCmp sa sb) := by
  intro ra
  induction ra with
  | nil =>
    intro rb sa sb h1 h2
    simp only [mapLookup] at h1
    cases h1
    cases rb with
    | nil =>
      simp only [mapLookup] at h2
      cases h2
      rfl
    | cons b bs =>
      simp only [mapLookup] at h2
      cases hg : parts.get? b with
      | none => rw [hg] at h2; simp at h2
      | some strb =>
        rw [hg] at h2
        simp only [Option.map_eq_some'] at h2
        obtain ⟨restb, -, rfl⟩ := h2
        rfl
  | cons a as ih =>
    intro rb sa sb h1 h2
    simp only [mapLookup] at h1
    cases hga : parts.get? a with
    | none => rw [hga] at h1; simp at h1
    | some stra =>
      rw [hga] at h1
      simp only [Option.map_eq_some'] at h1
      obtain ⟨resta, hresta, rfl⟩ := h1
      cases rb with
      | nil =>
        simp only [mapLookup] at h2
        cases h2
        rfl
      | cons b bs =>
        simp only [mapLookup] at h2
        cases hgb : parts.get? b with
        | none => rw [hgb] at h2; simp at h2
        | some strb =>
          rw [hgb] at h2
          simp only [Option.map_eq_some'] at h2
          obtain ⟨restb, hrestb, rfl⟩ := h2
          by_cases hab : a = b
          · subst hab
            have hseq : stra = strb := by
              rw [hga] at hgb
              exact (Option.some.inj hgb)
            subst hseq
            simp only [cmpParts, if_pos rfl, zipLexCmp, strCmp_self]
            exact ih hresta hrestb
          · have hslt : a < parts.length := by
              rcases List.get?_eq_some.mp hga with ⟨hlt, -⟩
              exact hlt
            have hsne : stra ≠ strb := by
              intro hseq
              apply hab
              exact List.get?_inj hslt hnd (by rw [hga, hgb, hseq])
            have hcmp_ne : strCmp stra strb ≠ Ordering.eq :=
              fun h => hsne (strCmp_eq_iff.mp h)
            simp only [cmpParts, if_neg hab, hga, hgb]
            cases hc : strCmp stra strb with
            | eq => exact absurd hc hcmp_ne
            | lt => simp [zipLexCmp, hc]
            | gt => simp [zipLexCmp, hc]

/-- `get_path` of the reserved index 0 is the empty path (its chain holds the
single empty part, which the `PathBuf` collection drops). -/
theorem get_path_zero {s : PathStore} (hs : WF s) : get_path s 0 = some [] := by
  have h0 : 0 < s.paths.length := by
    rcases List.get?_eq_some.mp hs.path0 with ⟨hlt, -⟩
    exact hlt
  have hch : chainRev s.paths (0 + 1) (some 0) = some [0] := by
    simp only [chainRev, hs.path0, chainRev_none, Option.map_some']
  have hch' : chainRev s.paths s.paths.length (some 0) = some [0] :=
    chainRev_mono hch h0
  have hml : mapLookup s.parts [0] = some [""] := by
    simp only [mapLookup, hs.part0, Option.map_some']
  simp only [get_path, hch', List.reverse_singleton, hml]
  rfl

theorem addSegs_ext : ∀ (p : List String) (s : PathStore) (cur : Option Nat),
    (∃ t, (addSegs s cur p).1.parts = s.parts ++ t) ∧
    (∃ u, (addSegs s cur p).1.paths = s.paths ++ u) := by
  intro p
  induction p with
  | nil =>
    intro s cur
    exact ⟨⟨[], by simp [addSegs]⟩, ⟨[], by simp [addSegs]⟩⟩
  | cons part rest ih =>
    intro s cur
    obtain ⟨t0, hPext⟩ := insert_or_lookup_ext s.parts part
    obtain ⟨u0, hQext⟩ :=
      insert_or_lookup_ext s.paths ((insert_or_lookup s.parts part).2, cur)
    obtain ⟨⟨t1, hT1⟩, ⟨u1, hU1⟩⟩ := ih ⟨(insert_or_lookup s.parts part).1,
        (insert_or_lookup s.paths ((insert_or_lookup s.parts part).2, cur)).1⟩
      (some (insert_or_lookup s.paths ((insert_or_lookup s.parts part).2, cur)).2)
    constructor
    · refine ⟨t0 ++ t1, ?_⟩
      show (addSegs _ _ rest).1.parts = s.parts ++ (t0 ++ t1)
      rw [hT1]
      show (insert_or_lookup s.parts part).1 ++ t1 = s.parts ++ (t0 ++ t1)
      rw [hPext, List.append_assoc]
    · refine ⟨u0 ++ u1, ?_⟩
      show (addSegs _ _ rest).1.paths = s.paths ++ (u0 ++ u1)
      rw [hU1]
      show (insert_or_lookup s.paths ((insert_or_lookup s.parts part).2, cur)).1 ++ u1 =
        s.paths ++ (u0 ++ u1)
      rw [hQext, List.append_assoc]

/-- Replaying the interning loop from any rightward extension of its own result
store changes nothing: every value is found, the store stays as it is, and the
same index comes back. -/
theorem addSegs_stable : ∀ (p : List String) (s : PathStore) (cur : Option Nat)
    (sE : PathStore),
    (∃ t, sE.parts = (addSegs s cur p).1.parts ++ t) →
    (∃ u, sE.paths = (addSegs s cur p).1.paths ++ u) →
    addSegs sE cur p = (sE, (addSegs s cur p).2) := by
  intro p
  induction p with
  | nil =>
    intro s cur sE _ _
    rfl
  | cons part rest ih =>
    intro s cur sE hT hU
    obtain ⟨⟨t1, hT1⟩, ⟨u1, hU1⟩⟩ := addSegs_ext rest
      ⟨(insert_or_lookup s.parts part).1,
       (insert_or_lookup s.paths ((insert_or_lookup s.parts part).2, cur)).1⟩
      (some (insert_or_lookup s.paths ((insert_or_lookup s.parts part).2, cur)).2)
    have hpartsE : ∃ t, sE.parts = (insert_or_lookup s.parts part).1 ++ t := by
      obtain ⟨t, ht⟩ := hT
      refine ⟨t1 ++ t, ?_⟩
      rw [ht]
      show (addSegs _ _ rest).1.parts ++ t = _
      rw [hT1]
      show (insert_or_lookup s.parts part).1 ++ t1 ++ t = _
      rw [List.append_assoc]
    have hpathsE : ∃ u, sE.paths =
        (insert_or_lookup s.paths ((insert_or_lookup s.parts part).2, cur)).1 ++ u := by
      obtain ⟨u, hu⟩ := hU
      refine ⟨u1 ++ u, ?_⟩
      rw [hu]
      show (addSegs _ _ rest).1.paths ++ u = _
      rw [hU1]
      show (insert_or_lookup s.paths ((insert_or_lookup s.parts part).2, cur)).1 ++ u1 ++ u = _
      rw [List.append_assoc]
    have hiolP : insert_or_lookup sE.parts part =
        (sE.parts, (insert_or_lookup s.parts part).2) :=
      insert_or_lookup_stable hpartsE
    have hiolQ : insert_or_lookup sE.paths ((insert_or_lookup s.parts part).2, cur) =
        (sE.paths, (insert_or_lookup s.paths ((insert_or_lookup s.parts part).2, cur)).2) :=
      insert_or_lookup_stable hpathsE
    have hhead : addSegs sE cur (part :: rest) =
        addSegs sE
          (some (insert_or_lookup s.paths ((insert_or_lookup s.parts part).2, cur)).2)
          rest := by
      show addSegs ⟨(insert_or_lookup sE.parts part).1,
          (insert_or_lookup sE.paths ((insert_or_lookup sE.parts part).2, cur)).1⟩
          (some (insert_or_lookup sE.paths ((insert_or_lookup sE.parts part).2, cur)).2)
          rest = _
      rw [hiolP]
      show addSegs ⟨sE.parts,
          (insert_or_lookup sE.paths ((insert_or_lookup s.parts part).2, cur)).1⟩
          (some (insert_or_lookup sE.paths ((insert_or_lookup s.parts part).2, cur)).2)
          rest = _
      rw [hiolQ]
    rw [hhead]
    have htail := ih
      ⟨(insert_or_lookup s.parts part).1,
       (insert_or_lookup s.paths ((insert_or_lookup s.parts part).2, cur)).1⟩
      (some (insert_or_lookup s.paths ((insert_or_lookup s.parts part).2, cur)).2)
      sE hT hU
    exact htail

/-- C4: `add_path` is idempotent — a second call with the same path on the
resulting store returns the same index and leaves the store, and so both the
interned-parts map and the interned-paths map, completely unchanged. -/
theorem c4_add_path_idempotent (s : PathStore) (p : List String) :
    add_path (add_path s p).1 p = add_path s p := by
  by_cases hp : p = []
  · subst hp
    rfl
  · have hne : ¬ (p.isEmpty = true) := by simpa [List.isEmpty_iff] using hp
    have h1 : add_path s p = ((addSegs s none p).1, (addSegs s none p).2.getD 0) := by
      unfold add_path
      rw [if_neg hne]
    have hstab := addSegs_stable p s none (addSegs s none p).1
      ⟨[], by simp⟩ ⟨[], by simp⟩
    rw [h1]
    show add_path (addSegs s none p).1 p = _
    unfold add_path
    rw [if_neg hne, hstab]

/-- C3: round trip — for every path `p` (a list of genuine, non-empty
filesystem components) added to a reachable store, `get_path` of the index
returned by `add_path` walks the parent links back to the root, reverses, and
reconstructs exactly `p`. -/
theorem c3_round_trip (s : PathStore) (p : List String) (hreach : Reachable s)
    (hsegs : ∀ seg ∈ p, seg ≠ "") :
    get_path (add_path s p).1 (add_path s p).2 = some p := by
  have hs := reachable_wf hreach
  by_cases hp : p = []
  · subst hp
    exact get_path_zero hs
  · obtain ⟨hWF, -, -, hlt, lr, hchain, hstr⟩ := add_path_spec hs p hp
    have hchain' := chainRev_mono hchain hlt
    have hrev := mapLookup_reverse hstr
    rw [List.reverse_reverse] at hrev
    simp only [get_path, hchain', hrev]
    congr 1
    refine List.filter_eq_self.mpr ?_
    intro a ha
    cases hbe : a.isEmpty
    · rfl
    · exact absurd ((String.isEmpty_iff a).mp hbe) (hsegs a ha)

theorem c3_round_trip_witness :
    get_path (add_path PathStore.new ["usr", "lib"]).1
      (add_path PathStore.new ["usr", "lib"]).2 = some ["usr", "lib"] :=
  c3_round_trip PathStore.new ["usr", "lib"] Reachable.base (by decide)

/-- C9: on every reachable store each chain node's parent index is strictly
smaller than the node's own index (the empty node 0 has no parent), every
index `add_path` returns is in range, and for all in-range indices the
parent-chain walks of `get_path` and `cmp_paths` terminate with every map
lookup succeeding. -/
theorem c9_parent_chain_safe (s : PathStore) (hreach : Reachable s) :
    (∀ i pe j, s.paths.get? i = some pe → pe.2 = some j → j < i) ∧
    s.paths.get? 0 = some (0, none) ∧
    (∀ p, (add_path s p).2 < (add_path s p).1.paths.length) ∧
    (∀ i, i < s.paths.length → ∃ l, get_path s i = some l) ∧
    (∀ a b, a < s.paths.length → b < s.paths.length →
      ∃ o, cmp_paths s a b = some o) := by
  have hs := reachable_wf hreach
  refine ⟨hs.parentLt, hs.path0, ?_, fun i hi => get_path_total hs hi,
    fun a b ha hb => cmp_paths_total hs ha hb⟩
  intro p
  by_cases hp : p = []
  · subst hp
    show (0 : Nat) < s.paths.length
    rcases List.get?_eq_some.mp hs.path0 with ⟨hlt, -⟩
    exact hlt
  · exact (add_path_spec hs p hp).2.2.2.1

theorem c9_witness :
    ∃ l, get_path (add_path PathStore.new ["a", "b"]).1 2 = some l :=
  (c9_parent_chain_safe (add_path PathStore.new ["a", "b"]).1
    (Reachable.step PathStore.new ["a", "b"] Reachable.base)).2.2.2.1 2 (by decide)

/-- C2 (counterexample): after adding the empty path (index 0) and the path
`["b"]` to a fresh store, `cmp_paths` returns `Less` — the empty path's chain
holds the single empty part, which is string-compared against `"b"` — whereas
the claimed zip comparison of the segment sequences `[]` and `["b"]` exhausts
immediately and would be `Equal`.  The claim is false for an empty path
against a non-empty one. -/
theorem c2_counterexample :
    cmp_paths (add_path (add_path PathStore.new []).1 ["b"]).1
        (add_path PathStore.new []).2
        (add_path (add_path PathStore.new []).1 ["b"]).2 ≠
      some (zipLexCmp [] ["b"]) := by
  decide

/-- C2 (amended): for paths `a` and `b` that are both empty or both
non-empty, `cmp_paths` on their `add_path` indices computes exactly the
segment-wise zip comparison: decided by string comparison at the first
segment pair whose interned indices differ, and `Equal` when all zipped pairs
match, including when one segment sequence is a strict prefix of the other.
(When exactly one path is empty the code instead compares the reserved empty
part against the other path's first segment.) -/
theorem c2_cmp_paths_zip (s : PathStore) (a b : List String) (hreach : Reachable s)
    (hab : a = [] ↔ b = []) :
    cmp_paths (add_path (add_path s a).1 b).1 (add_path s a).2
      (add_path (add_path s a).1 b).2 = some (zipLexCmp a b) := by
  have hs := reachable_wf hreach
  by_cases ha : a = []
  · have hb := hab.mp ha
    subst ha
    subst hb
    rfl
  · have hb : b ≠ [] := fun h => ha (hab.mpr h)
    obtain ⟨hs1, ⟨t1, hT1⟩, ⟨u1, hU1⟩, hlt1, la, hchain_a, hstr_a⟩ := add_path_spec hs a ha
    obtain ⟨hs2, ⟨t2, hT2⟩, ⟨u2, hU2⟩, hlt2, lb, hchain_b, hstr_b⟩ :=
      add_path_spec hs1 b hb
    set s1 := (add_path s a).1 with hs1_def
    set ia := (add_path s a).2 with hia_def
    set s2 := (add_path s1 b).1 with hs2_def
    set ib := (add_path s1 b).2 with hib_def
    have hchain_a2 : chainRev s2.paths (ia + 1) (some ia) = some la := by
      rw [hU2]
      exact chainRev_ext hchain_a
    have hstr_a2 : mapLookup s2.parts la = some a.reverse := by
      rw [hT2]
      exact mapLookup_ext hstr_a
    have hlt_a2 : ia < s2.paths.length := by
      rw [hU2, List.length_append]
      omega
    by_cases hii : ia = ib
    · have h1 : chainRev s2.paths s2.paths.length (some ib) = some la := by
        rw [← hii]
        exact chainRev_mono hchain_a2 hlt_a2
      have h2 : chainRev s2.paths s2.paths.length (some ib) = some lb :=
        chainRev_mono hchain_b hlt2
      have hlab : la = lb := Option.some.inj (h1.symm.trans h2)
      have hsab : a = b := by
        rw [← hlab] at hstr_b
        have hrev : a.reverse = b.reverse :=
          Option.some.inj (hstr_a2.symm.trans hstr_b)
        have := congrArg List.reverse hrev
        simpa using this
      subst hsab
      simp [cmp_paths, hii, zipLexCmp_self]
    · have h1 := chainRev_mono hchain_a2 hlt_a2
      have h2 := chainRev_mono hchain_b hlt2
      have hz := cmpParts_eq_zip hs2.partsNodup
        (mapLookup_reverse hstr_a2) (mapLookup_reverse hstr_b)
      simp only [cmp_paths, if_neg hii, h1, h2]
      simpa [List.reverse_reverse] using hz

theorem c2_cmp_paths_zip_witness :
    cmp_paths (add_path (add_path PathStore.new ["usr", "a"]).1 ["usr", "a", "x"]).1
        (add_path PathStore.new ["usr", "a"]).2
        (add_path (add_path PathStore.new ["usr", "a"]).1 ["usr", "a", "x"]).2 =
      some (zipLexCmp ["usr", "a"] ["usr", "a", "x"]) :=
  c2_cmp_paths_zip PathStore.new ["usr", "a"] ["usr", "a", "x"] Reachable.base
    (by decide)

/-- The `Flags` struct of `src/filesystemtable.rs` (all default to `false`). -/
structure Flags where
  is_dir : Bool := false
  dotfile : Bool := false
  symlink : Bool := false
  readable : Bool := false
  writable : Bool := false
  executable : Bool := false
deriving DecidableEq

/-- The per-entry `Content` variant of `src/filesystemtable.rs`: no content,
inline bytes at an arena offset, or a digest reference at an arena offset. -/
inductive Content where
  | none
  | bytes (offset : Nat)
  | digest (offset : Nat)
deriving DecidableEq

/-- The `Entry` struct of `src/filesystemtable.rs`; the optional digest holds
the `NonZeroU128` payload. -/
structure Entry where
  path : Nat
  size : Nat
  flags : Flags := {}
  content : Content := Content.none
  digest : Option Nat := none
deriving DecidableEq

/-- The inner loop of Rust's `Vec::dedup_by` after the first element: `kept`
is the last retained element; the closure receives the candidate (later)
element first and the retained element second, and a `true` answer removes
the candidate.  Consequently the FIRST element of each run survives. -/
def dedupFrom {α : Type} (f : α → α → Bool) (kept : α) : List α → List α
  | [] => []
  | b :: rest => if f b kept then dedupFrom f kept rest else b :: dedupFrom f b rest

/-- Rust's `Vec::dedup_by`. -/
def dedup_by {α : Type} (f : α → α → Bool) : List α → List α
  | [] => []
  | a :: rest => a :: dedupFrom f a rest

/-- Comparator-based insertion: `x` is placed before the first element it does
not strictly exceed (so it lands after elements comparing `Equal` that were
inserted before it). -/
def insertCmp {α : Type} (cmp : α → α → Ordering) (x : α) : List α → List α
  | [] => [x]
  | y :: ys => if cmp x y = Ordering.gt then y :: insertCmp cmp x ys else x :: y :: ys

/-- The model of the `par_sort_unstable_by` calls: an insertion sort.  Rust's
unstable sort runs a plain insertion sort on short slices (below about 20
elements) and that insertion sort does not reorder elements that compare
equal, so on the concrete inputs used below this model is exact; the general
theorems rely only on the output being a sorted permutation, which holds for
any correct sort. -/
def sortByCmp {α : Type} (cmp : α → α → Ordering) : List α → List α
  | [] => []
  | x :: xs => insertCmp cmp x (sortByCmp cmp xs)

/-- The equal-path closure `|a, b| a.path == b.path` that `Table::do_ingest`
passes to `dedup_by`. -/
def pathEq (a b : Entry) : Bool := a.path == b.path

/-- The merge step ending `Table::do_ingest`: append the newly built entries
to the table's entries, sort the combined list by `cmp_paths`, and `dedup_by`
adjacent equal-path entries.  A failed comparison (a dangling path index — a
panic in Rust) is treated as `Equal`; it cannot occur for indices interned in
the store. -/
def do_ingest_merge (s : PathStore) (tableEntries newEntries : List Entry) :
    List Entry :=
  dedup_by pathEq
    (sortByCmp (fun a b => (cmp_paths s a.path b.path).getD Ordering.eq)
      (tableEntries ++ newEntries))

/-- Splits off the leading run of elements `f`-equal to the run head `h`. -/
def takeRun {α : Type} (f : α → α → Bool) (h : α) : List α → List α × List α
  | [] => ([], [])
  | x :: xs =>
    if f x h then (x :: (takeRun f h xs).1, (takeRun f h xs).2)
    else ([], x :: xs)

/-- The deduplication C1's amended claim describes, stated directly: keep the
first element of each maximal run of adjacent equal elements and drop the
rest (fuelled by the list length for structural termination). -/
def keepFirstsFuel {α : Type} (f : α → α → Bool) : Nat → List α → List α
  | 0, _ => []
  | _, [] => []
  | fuel + 1, x :: xs => x :: keepFirstsFuel f fuel (takeRun f x xs).2

def keepFirsts {α : Type} (f : α → α → Bool) (l : List α) : List α :=
  keepFirstsFuel f l.length l

theorem dedupFrom_eq_keepFirstsFuel {α : Type} (f : α → α → Bool) :
    ∀ (l : List α) (fuel : Nat) (kept : α), l.length ≤ fuel →
      dedupFrom f kept l = keepFirstsFuel f fuel (takeRun f kept l).2 := by
  intro l
  induction l with
  | nil =>
    intro fuel kept _
    cases fuel <;> rfl
  | cons b rest ih =>
    intro fuel kept hf
    simp only [List.length_cons] at hf
    by_cases hb : f b kept
    · simp only [dedupFrom, if_pos hb, takeRun, if_pos hb]
      exact ih fuel kept (by omega)
    · simp only [dedupFrom, if_neg hb, takeRun, if_neg hb]
      obtain ⟨fl, rfl⟩ : ∃ fl, fuel = fl + 1 := ⟨fuel - 1, by omega⟩
      simp only [keepFirstsFuel]
      rw [ih fl b (by omega)]

theorem dedup_by_eq_keepFirsts {α : Type} (f : α → α → Bool) (l : List α) :
    dedup_by f l = keepFirsts f l := by
  cases l with
  | nil => rfl
  | cons a rest =>
    show a :: dedupFrom f a rest = keepFirstsFuel f (a :: rest).length (a :: rest)
    simp only [List.length_cons, keepFirstsFuel]
    congr 1
    exact dedupFrom_eq_keepFirstsFuel f rest rest.length a le_rfl

/-- C1 (counterexample): a table holding an entry for path index 1 (size 10)
re-ingests an entry for the same path with a new size 20.  The merge keeps
the OLD entry: the sort leaves the equal-path pair in place and `dedup_by`
removes the later element of the run, so the surviving entry is NOT the one
from the later ingestion. -/
theorem c1_counterexample :
    do_ingest_merge (add_path PathStore.new ["a"]).1
        [{ path := 1, size := 10 }] [{ path := 1, size := 20 }] =
      [{ path := 1, size := 10 }] ∧
    ({ path := 1, size := 10 } : Entry) ≠ { path := 1, size := 20 } := by
  decide

/-- C1 (amended): the merge sorts the combined list by `cmp_paths` and then
deduplicates adjacent equal-path entries keeping the FIRST (left-hand)
occurrence of every run — `dedup_by` is exactly keep-first-of-each-run — so
for a path held by the table and ingested again, the surviving entry is the
earlier one (the unstable sort does not reorder the equal-keyed pair in the
de-facto small-slice behaviour this model reproduces); a re-ingestion does
not overwrite the stale entry. -/
theorem c1_merge_keeps_first :
    (∀ (f : Entry → Entry → Bool) (l : List Entry), dedup_by f l = keepFirsts f l) ∧
    (∀ (s : PathStore) (e1 e2 : Entry), e1.path = e2.path →
      do_ingest_merge s [e1] [e2] = [e1]) := by
  constructor
  · intro f l
    exact dedup_by_eq_keepFirsts f l
  · intro s e1 e2 hpath
    have hcmp : cmp_paths s e1.path e2.path = some Ordering.eq := by
      simp [cmp_paths, hpath]
    have hsort : sortByCmp (fun a b => (cmp_paths s a.path b.path).getD Ordering.eq)
        ([e1] ++ [e2]) = [e1, e2] := by
      show insertCmp _ e1 (insertCmp _ e2 []) = _
      simp [insertCmp, hcmp]
    unfold do_ingest_merge
    rw [hsort]
    have hpe : pathEq e2 e1 = true := by
      simp [pathEq, hpath]
    simp [dedup_by, dedupFrom, hpe]

theorem c1_witness :
    do_ingest_merge (add_path PathStore.new ["b"]).1
        [{ path := 1, size := 7 }] [{ path := 1, size := 9 }] =
      [{ path := 1, size := 7 }] :=
  c1_merge_keeps_first.2 (add_path PathStore.new ["b"]).1
    { path := 1, size := 7 } { path := 1, size := 9 } rfl

/-- One iteration of the parallel content-loading loop in `Table::do_ingest`
(`ingest_file_content` enabled), for one entry under one fixed serialisation
of the arena lock: read the file (`fs` maps a path index to the file's bytes,
`none` being a read failure); on success append the bytes to the arena inside
the critical section, record `Content::Bytes` at the arena length read there,
and, if `compute_digests` is also set, digest the bytes just read; on failure
log a warning and leave the entry untouched. -/
def ingest_content_step (compute_digest : Bool) (digestFn : List Nat → Nat)
    (fs : Nat → Option (List Nat)) (arena : List Nat) (e : Entry) :
    List Nat × Entry :=
  match fs e.path with
  | some file_contents =>
    (arena ++ file_contents,
     { e with
        content := Content.bytes arena.length,
        digest := if compute_digest then some (digestFn file_contents) else e.digest })
  | none => (arena, e)

/-- The whole content-loading pass over the new entries, processed in list
order (one serialisation of the parallel loop; which offsets come out depends
on the schedule, but every recorded offset is the arena length at its own
append). -/
def ingest_content (compute_digest : Bool) (digestFn : List Nat → Nat)
    (fs : Nat → Option (List Nat)) : List Nat → List Entry → List Nat × List Entry
  | arena, [] => (arena, [])
  | arena, e :: rest =>
    ((ingest_content compute_digest digestFn fs
        (ingest_content_step compute_digest digestFn fs arena e).1 rest).1,
     (ingest_content_step compute_digest digestFn fs arena e).2 ::
       (ingest_content compute_digest digestFn fs
         (ingest_content_step compute_digest digestFn fs arena e).1 rest).2)

/-- `Table::compute_file_digest`: open and read the file and digest its
bytes; a failure to open panics (`.error`) — there is no soft recovery. -/
def compute_file_digest (digestFn : List Nat → Nat) (fs : Nat → Option (List Nat))
    (path : Nat) : Except String (Option Nat) :=
  match fs path with
  | some data => Except.ok (some (digestFn data))
  | none => Except.error "panic: error opening file"

/-- The digest-only pass of `Table::do_ingest` (`compute_digests` set,
`ingest_file_content` not): every entry's digest is computed straight from
disk; a panic aborts the pass. -/
def ingest_digests (digestFn : List Nat → Nat) (fs : Nat → Option (List Nat)) :
    List Entry → Except String (List Entry)
  | [] => Except.ok []
  | e :: rest =>
    match compute_file_digest digestFn fs e.path with
    | Except.error msg => Except.error msg
    | Except.ok d =>
      match ingest_digests digestFn fs rest with
      | Except.error msg => Except.error msg
      | Except.ok rest2 => Except.ok ({ e with digest := d } :: rest2)

/-- C7: failure handling is asymmetric, as the spec states.  A failed read
during content ingestion leaves that entry exactly as built — content `None`,
digest `None` — and the arena untouched, and the pass continues over the
remaining entries; whereas a failed open during digest-only computation is
fatal: the whole pass ends in the panic. -/
theorem c7_failure_asymmetry :
    (∀ (cd : Bool) (digestFn : List Nat → Nat) (fs : Nat → Option (List Nat))
        (arena : List Nat) (e : Entry), fs e.path = none →
      ingest_content_step cd digestFn fs arena e = (arena, e)) ∧
    (∀ (cd : Bool) (digestFn : List Nat → Nat) (fs : Nat → Option (List Nat))
        (arena : List Nat) (e : Entry) (rest : List Entry), fs e.path = none →
      ingest_content cd digestFn fs arena (e :: rest) =
        ((ingest_content cd digestFn fs arena rest).1,
         e :: (ingest_content cd digestFn fs arena rest).2)) ∧
    (∀ (digestFn : List Nat → Nat) (fs : Nat → Option (List Nat))
        (e : Entry) (rest : List Entry), fs e.path = none →
      ingest_digests digestFn fs (e :: rest) =
        Except.error "panic: error opening file") := by
  refine ⟨?_, ?_, ?_⟩
  · intro cd digestFn fs arena e h
    simp [ingest_content_step, h]
  · intro cd digestFn fs arena e rest h
    simp [ingest_content, ingest_content_step, h]
  · intro digestFn fs e rest h
    simp [ingest_digests, compute_file_digest, h]

theorem c7_witness :
    ingest_content_step false (fun _ => 1) (fun _ => none) []
        { path := 7, size := 5 } = ([], { path := 7, size := 5 }) ∧
    ingest_digests (fun _ => 1) (fun _ => none) [{ path := 7, size := 5 }] =
      Except.error "panic: error opening file" :=
  ⟨c7_failure_asymmetry.1 false (fun _ => 1) (fun _ => none) []
      { path := 7, size := 5 } rfl,
   c7_failure_asymmetry.2.2 (fun _ => 1) (fun _ => none)
      { path := 7, size := 5 } [] rfl⟩

/-- Rust slice indexing `&v[a..b]`: `none` models the out-of-bounds panic
(`a > b` or `b > v.len()`). -/
def sliceRange (v : List Nat) (a b : Nat) : Option (List Nat) :=
  if a ≤ b ∧ b ≤ v.length then some ((v.drop a).take (b - a)) else none

/-- `TableEntry::contained_content`: for inline content the code slices the
arena as `content[index .. entry.size]` — the entry's SIZE is used as the
absolute end bound of the slice (the source carries a TODO at this line). -/
def contained_content (tableContent : List Nat) (e : Entry) :
    Except String (Option (List Nat)) :=
  match e.content with
  | Content.bytes index =>
    match sliceRange tableContent index e.size with
    | some bs => Except.ok (some bs)
    | none => Except.error "panic: slice index out of range"
  | _ => Except.ok none

/-- C8 (the code evaluated at the failing input): ingesting two files with
bytes `[7]` and `[8, 9, 10]` (content enabled, digests off) yields the arena
`[7, 8, 9, 10]`; the second entry records `Content::Bytes(1)` — the arena
length at the moment of its append, as the claim says — but
`contained_content` then returns `content[1 .. size] = content[1 .. 3] =
[8, 9]` instead of the entry's own bytes
`content[offset .. offset + size] = content[1 .. 4] = [8, 9, 10]`. -/
theorem c8_end_bound_wrong :
    ingest_content false (fun _ => 1)
        (fun p => if p = 1 then some [7] else if p = 2 then some [8, 9, 10] else none)
        [] [{ path := 1, size := 1 }, { path := 2, size := 3 }] =
      ([7, 8, 9, 10],
       [{ path := 1, size := 1, content := Content.bytes 0 },
        { path := 2, size := 3, content := Content.bytes 1 }]) ∧
    contained_content [7, 8, 9, 10]
        { path := 2, size := 3, content := Content.bytes 1 } =
      Except.ok (some [8, 9]) ∧
    sliceRange [7, 8, 9, 10] 1 (1 + 3) = some [8, 9, 10] := by
  decide

/-- The `FileEntry` of `src/main.rs` / `src/lib.rs`: file name, full path (as
its component list), byte length, and the atomic digest cell (`None` until a
digest is stored). -/
structure FileEntry where
  name : String
  path : List String
  len : Nat
  digest : Option Nat
deriving DecidableEq

/-- A walked directory entry as `FileEntry::from_jwalk_entry` sees it:
`name = none` models a non-unicode file name, `meta = none` unreadable
metadata, and `meta = some len` metadata reporting `len` bytes. -/
structure JWalkEntry where
  name : Option String
  path : List String
  meta : Option Nat
deriving DecidableEq

/-- `FileEntry::from_jwalk_entry`: skip entries whose name is not valid
unicode or whose metadata is inaccessible; a fresh entry has no digest. -/
def from_jwalk_entry (e : JWalkEntry) : Option FileEntry :=
  match e.name with
  | none => none
  | some file_name =>
    match e.meta with
    | none => none
    | some len => some { name := file_name, path := e.path, len := len, digest := none }

/-- `filter_files` of `src/main.rs`: convert the walked entries and keep only
those whose length strictly exceeds `min_file_size = 1024` bytes
(`entry.len > min_file_size`). -/
def filter_files (entries : List JWalkEntry) : List FileEntry :=
  (entries.filterMap from_jwalk_entry).filter (fun e => 1024 < e.len)

/-- Comparison of two `u128` digest values. -/
def natCmp (a b : Nat) : Ordering :=
  if a = b then Ordering.eq else if a < b then Ordering.lt else Ordering.gt

/-- Rust's `Option::cmp`: `None` sorts below every `Some`. -/
def optCmp : Option Nat → Option Nat → Ordering
  | none, none => Ordering.eq
  | none, some _ => Ordering.lt
  | some _, none => Ordering.gt
  | some a, some b => natCmp a b

/-- The comparator `|a, b| a.digest.load().cmp(&b.digest.load())` that
`compute_savings` hands to `par_sort_unstable_by` — digest values only, no
path tie-break. -/
def savings_cmp (a b : FileEntry) : Ordering := optCmp a.digest b.digest

/-- The pre-grouping sort of `compute_savings`. -/
def savings_sort (l : List FileEntry) : List FileEntry := sortByCmp savings_cmp l

/-- `FileEntry::load_digest`.  In the savings pipeline `compute_digests` has
stored a digest in every entry first, so the lazy compute-on-`None` branch (a
disk read) is never reached; it is modelled by a default value. -/
def load_digest (e : FileEntry) : Nat := e.digest.getD 0

/-- `PathBuf`'s component-wise lexicographic ordering (a strict prefix is
smaller), used by `FileEntry`'s `Ord` as the tie-break. -/
def pathCmp : List String → List String → Ordering
  | [], [] => Ordering.eq
  | [], _ :: _ => Ordering.lt
  | _ :: _, [] => Ordering.gt
  | a :: as, b :: bs =>
    match strCmp a b with
    | Ordering.eq => pathCmp as bs
    | o => o

/-- The `Ord` implementation of `FileEntry` (`src/lib.rs` lines 284-292 and
its copy in `src/main.rs`): digest order first, path order as the
tie-break. -/
def FileEntry_cmp (a b : FileEntry) : Ordering :=
  match natCmp (load_digest a) (load_digest b) with
  | Ordering.eq => pathCmp a.path b.path
  | o => o

/-- One batch of `group_by_digest`: starting after the group's first element,
extend the group while the peeked element compares equal to the FIRST element
(`FileEntry`'s `PartialEq` is digest equality). -/
def takeGroup (h : FileEntry) : List FileEntry → List FileEntry × List FileEntry
  | [] => ([], [])
  | e :: rest =>
    if load_digest e = load_digest h then
      (e :: (takeGroup h rest).1, (takeGroup h rest).2)
    else ([], e :: rest)

/-- `group_by_digest` of `src/main.rs`: partition the (sorted) entry list into
maximal runs whose members compare equal to the run's first element.  The
fuel — the list length, an upper bound on the number of groups — keeps the
recursion structural. -/
def group_by_digest_fuel : Nat → List FileEntry → List (List FileEntry)
  | 0, _ => []
  | _, [] => []
  | fuel + 1, e :: rest =>
    (e :: (takeGroup e rest).1) :: group_by_digest_fuel fuel (takeGroup e rest).2

def group_by_digest (l : List FileEntry) : List (List FileEntry) :=
  group_by_digest_fuel l.length l

/-- `compute_digests` of `src/main.rs`: store a digest into every entry;
`digestOf` stands for `compute_file_digest` on the entry's file (whose open
failure would panic — the theorems here use total digest functions). -/
def compute_digests (digestOf : List String → Nat) (l : List FileEntry) :
    List FileEntry :=
  l.map (fun e => { e with digest := some (digestOf e.path) })

/-- Everything `compute_savings` derives: the count and total byte count of
the filtered entries (both printed), and the equal-digest groups of the
digest-sorted list, of which the code prints only those with more than 10
members.  No deduplicated byte count and no group count are computed — the
statements that would print them are commented out in the source. -/
structure SavingsOutcome where
  file_count : Nat
  file_bytes : Nat
  groups : List (List FileEntry)
deriving DecidableEq

/-- The `fold(0, |acc, entry| acc + entry.len)` total of `compute_savings`. -/
def file_bytes (l : List FileEntry) : Nat := l.foldl (fun acc e => acc + e.len) 0

/-- `compute_savings` of `src/main.rs` (its computation; the printing is
modelled by the `SavingsOutcome` fields). -/
def compute_savings (digestOf : List String → Nat) (entries : List JWalkEntry) :
    SavingsOutcome :=
  { file_count := (filter_files entries).length,
    file_bytes := file_bytes (filter_files entries),
    groups := group_by_digest
      (savings_sort (compute_digests digestOf (filter_files entries))) }

/-- The only group output `compute_savings` prints: groups of more than 10
members, at most the first 10 of them. -/
def printed_groups (groups : List (List FileEntry)) : List (List FileEntry) :=
  (groups.filter (fun g => 10 < g.length)).take 10

/-- Modelled from the spec (computed nowhere in the code): the deduplicated
byte count — the size of one representative (the first member) of each group,
summed. -/
def represented_sum (groups : List (List FileEntry)) : Nat :=
  groups.foldl (fun acc g => acc + ((g.head?.map (fun e => e.len)).getD 0)) 0

/-- Modelled from the spec (computed nowhere in the code): the duplicated byte
count — `size * (N - 1)` for each group of `N` members, summed. -/
def duplicated_sum (groups : List (List FileEntry)) : Nat :=
  groups.foldl
    (fun acc g => acc + ((g.head?.map (fun e => e.len)).getD 0) * (g.length - 1)) 0

/-- The six analyzed entries of C5: digests `[A, A, B, C, C, C]` (as 1, 2, 3)
and sizes `[10, 10, 5, 3, 3, 3]`. -/
def c5_entries : List FileEntry :=
  [{ name := "f1", path := ["f1"], len := 10, digest := some 1 },
   { name := "f2", path := ["f2"], len := 10, digest := some 1 },
   { name := "f3", path := ["f3"], len := 5, digest := some 2 },
   { name := "f4", path := ["f4"], len := 3, digest := some 3 },
   { name := "f5", path := ["f5"], len := 3, digest := some 3 },
   { name := "f6", path := ["f6"], len := 3, digest := some 3 }]

/-- C5 (the code evaluated at the claim's input): the total is 34 and the
digest grouping yields 3 groups of sizes 2, 1 and 3, whose representative
sizes sum to 18 and whose duplicated sizes `s * (N - 1)` sum to 16 — but the
code reports none of the group figures: its only group output (groups of more
than 10 members) is empty here, and the deduplicated byte count and group
count are never computed (their print statements are commented out). -/
theorem c5_grouping_values :
    file_bytes c5_entries = 34 ∧
    (group_by_digest (savings_sort c5_entries)).map List.length = [2, 1, 3] ∧
    represented_sum (group_by_digest (savings_sort c5_entries)) = 18 ∧
    duplicated_sum (group_by_digest (savings_sort c5_entries)) = 16 ∧
    printed_groups (group_by_digest (savings_sort c5_entries)) = [] := by
  decide

/-- The two equal-digest, distinct-path entries of C6's counterexample. -/
def c6_e1 : FileEntry := { name := "b", path := ["b"], len := 5, digest := some 1 }

def c6_e2 : FileEntry := { name := "a", path := ["a"], len := 5, digest := some 1 }

/-- C6 (counterexample): the sort in `compute_savings` compares digests only.
Two equal-digest entries with different paths compare `Equal` under its
comparator, so both arrival orders are already sorted and are returned
unchanged — the order of equal-digest entries is arrival order, not path
order, and the sorted output is not deterministic in the entry set.
`FileEntry`'s own `Ord` (digest, then path) does order the pair, but it is
not the comparator the sort uses. -/
theorem c6_counterexample :
    savings_cmp c6_e1 c6_e2 = Ordering.eq ∧
    c6_e1.path ≠ c6_e2.path ∧
    FileEntry_cmp c6_e1 c6_e2 = Ordering.gt ∧
    savings_sort [c6_e1, c6_e2] = [c6_e1, c6_e2] ∧
    savings_sort [c6_e2, c6_e1] = [c6_e2, c6_e1] := by
  decide

theorem insertCmp_perm {α : Type} (cmp : α → α → Ordering) (x : α) :
    ∀ l : List α, (insertCmp cmp x l).Perm (x :: l) := by
  intro l
  induction l with
  | nil => exact List.Perm.refl _
  | cons y ys ih =>
    by_cases h : cmp x y = Ordering.gt
    · simp only [insertCmp, if_pos h]
      exact (List.Perm.cons y ih).trans (List.Perm.swap x y ys)
    · simp only [insertCmp, if_neg h]
      exact List.Perm.refl _

theorem sortByCmp_perm {α : Type} (cmp : α → α → Ordering) :
    ∀ l : List α, (sortByCmp cmp l).Perm l := by
  intro l
  induction l with
  | nil => exact List.Perm.refl _
  | cons x xs ih =>
    exact (insertCmp_perm cmp x (sortByCmp cmp xs)).trans (List.Perm.cons x ih)

theorem insertCmp_pairwise {α : Type} {cmp : α → α → Ordering}
    (hasym : ∀ a b, cmp a b = Ordering.gt → cmp b a ≠ Ordering.gt)
    (htrans : ∀ a b c, cmp a b ≠ Ordering.gt → cmp b c ≠ Ordering.gt →
      cmp a c ≠ Ordering.gt)
    (x : α) : ∀ {l : List α},
    l.Pairwise (fun a b => cmp a b ≠ Ordering.gt) →
    (insertCmp cmp x l).Pairwise (fun a b => cmp a b ≠ Ordering.gt) := by
  intro l
  induction l with
  | nil =>
    intro _
    exact List.pairwise_singleton _ x
  | cons y ys ih =>
    intro hp
    rcases List.pairwise_cons.mp hp with ⟨hy, hys⟩
    by_cases h : cmp x y = Ordering.gt
    · simp only [insertCmp, if_pos h]
      refine List.pairwise_cons.mpr ⟨?_, ih hys⟩
      intro z hz
      have hz' : z = x ∨ z ∈ ys := by
        have := (insertCmp_perm cmp x ys).mem_iff.mp hz
        simpa using this
      rcases hz' with rfl | hz'
      · exact hasym _ y h
      · exact hy z hz'
    · simp only [insertCmp, if_neg h]
      refine List.pairwise_cons.mpr ⟨?_, hp⟩
      intro z hz
      rcases List.mem_cons.mp hz with rfl | hz'
      · exact h
      · exact htrans x y z h (hy z hz')

theorem sortByCmp_pairwise {α : Type} {cmp : α → α → Ordering}
    (hasym : ∀ a b, cmp a b = Ordering.gt → cmp b a ≠ Ordering.gt)
    (htrans : ∀ a b c, cmp a b ≠ Ordering.gt → cmp b c ≠ Ordering.gt →
      cmp a c ≠ Ordering.gt) :
    ∀ l : List α, (sortByCmp cmp l).Pairwise (fun a b => cmp a b ≠ Ordering.gt) := by
  intro l
  induction l with
  | nil => exact List.Pairwise.nil
  | cons x xs ih => exact insertCmp_pairwise hasym htrans x ih

theorem natCmp_gt_iff {a b : Nat} : natCmp a b = Ordering.gt ↔ b < a := by
  unfold natCmp
  split_ifs with h1 h2
  · constructor
    · intro h
      cases h
    · omega
  · constructor
    · intro h
      cases h
    · omega
  · constructor
    · intro _
      omega
    · intro _
      rfl

theorem optCmp_asym : ∀ a b, optCmp a b = Ordering.gt → optCmp b a ≠ Ordering.gt := by
  intro a b h
  cases a with
  | none =>
    cases b with
    | none => cases h
    | some y => cases h
  | some x =>
    cases b with
    | none =>
      intro hc
      cases hc
    | some y =>
      have hxy : y < x := natCmp_gt_iff.mp h
      show natCmp y x ≠ Ordering.gt
      rw [Ne, natCmp_gt_iff]
      omega

theorem optCmp_le_trans : ∀ a b c, optCmp a b ≠ Ordering.gt →
    optCmp b c ≠ Ordering.gt → optCmp a c ≠ Ordering.gt := by
  intro a b c hab hbc
  cases a with
  | none =>
    cases c with
    | none => intro h; cases h
    | some z => intro h; cases h
  | some x =>
    cases b with
    | none =>
      exact absurd rfl hab
    | some y =>
      cases c with
      | none => exact absurd rfl hbc
      | some z =>
        have hxy : ¬ y < x := fun h => hab (natCmp_gt_iff.mpr h)
        have hyz : ¬ z < y := fun h => hbc (natCmp_gt_iff.mpr h)
        show natCmp x z ≠ Ordering.gt
        rw [Ne, natCmp_gt_iff]
        omega

/-- C6 (amended): `compute_savings` sorts by digest value only — the
comparator it passes to the unstable sort ignores paths entirely, so the
relative order of equal-digest entries is not determined by path (see the
counterexample).  What the sort does guarantee, and what the grouping needs,
is that the output is a permutation of the input that is ordered by digest,
making every set of equal-digest entries adjacent. -/
theorem c6_sort_by_digest_only (l : List FileEntry) :
    (savings_sort l).Perm l ∧
    (savings_sort l).Pairwise (fun a b => savings_cmp a b ≠ Ordering.gt) := by
  constructor
  · exact sortByCmp_perm savings_cmp l
  · exact sortByCmp_pairwise
      (fun a b h => optCmp_asym a.digest b.digest h)
      (fun a b c h1 h2 => optCmp_le_trans a.digest b.digest c.digest h1 h2) l

/-- C10: `filter_files` keeps exactly the walked entries that convert to a
`FileEntry` (valid-unicode name, readable metadata) and whose byte length
strictly exceeds 1024; a walked entry of at most 1024 bytes can be removed
anywhere from the walk without changing anything the savings analysis
derives — file count, total bytes, or any digest group. -/
theorem c10_small_files_excluded :
    (∀ (es : List JWalkEntry) (fe : FileEntry),
      fe ∈ filter_files es ↔
        ((∃ je, je ∈ es ∧ from_jwalk_entry je = some fe) ∧ 1024 < fe.len)) ∧
    (∀ (digestOf : List String → Nat) (xs ys : List JWalkEntry) (je : JWalkEntry),
      (∀ fe, from_jwalk_entry je = some fe → fe.len ≤ 1024) →
      compute_savings digestOf (xs ++ je :: ys) = compute_savings digestOf (xs ++ ys)) := by
  constructor
  · intro es fe
    unfold filter_files
    rw [List.mem_filter, List.mem_filterMap]
    constructor
    · rintro ⟨⟨je, hmem, hje⟩, hlen⟩
      exact ⟨⟨je, hmem, hje⟩, by simpa using hlen⟩
    · rintro ⟨⟨je, hmem, hje⟩, hlen⟩
      exact ⟨⟨je, hmem, hje⟩, by simpa using hlen⟩
  · intro digestOf xs ys je hsmall
    have hff : filter_files (xs ++ je :: ys) = filter_files (xs ++ ys) := by
      unfold filter_files
      rw [List.filterMap_append, List.filterMap_append, List.filterMap_cons]
      cases hje : from_jwalk_entry je with
      | none => rfl
      | some fe =>
        have hle := hsmall fe hje
        rw [List.filter_append, List.filter_append, List.filter_cons]
        rw [if_neg (by simpa using Nat.not_lt.mpr hle)]
    unfold compute_savings
    rw [hff]

theorem c10_witness :
    ({ name := "big", path := ["big"], len := 2000, digest := none } : FileEntry) ∈
      filter_files [{ name := some "big", path := ["big"], meta := some 2000 }] ∧
    compute_savings (fun _ => 1)
        ([] ++ { name := some "s", path := ["s"], meta := some 100 } :: []) =
      compute_savings (fun _ => 1) ([] ++ []) :=
  ⟨(c10_small_files_excluded.1
      [{ name := some "big", path := ["big"], meta := some 2000 }]
      { name := "big", path := ["big"], len := 2000, digest := none }).mpr
    ⟨⟨{ name := some "big", path := ["big"], meta := some 2000 },
      List.mem_singleton.mpr rfl, rfl⟩, by decide⟩,
   c10_small_files_excluded.2 (fun _ => 1) [] []
     { name := some "s", path := ["s"], meta := some 100 }
     (fun fe hfe => by
       cases hfe
       decide)⟩

end Dedup
